import Mathlib

/-!
Verification development for the fund-relay ("mixer") pipeline and the
continuous-distribution variant of the buyback token repository.

The definitions below are shallow embeddings of the TypeScript source:
`src/mixer.ts` (pool selection, funding, sweeping, the unlock registry,
the random split) and `src/src/config.ts` (the distribution loop's paid
set and its big-integer random split).  Ledger balances are modelled as
integers (lamports); SOL-denominated JavaScript number arithmetic is
modelled over the rationals, with Math.floor as Rat.floor; the
comparator-less sort of JavaScript arrays, which orders numbers by the
lexicographic comparison of their string forms, is modelled by an
injected comparator constrained to the facts of that string order on the
values involved (see JsSortModel); randomness (Math.random draws, random
pool/weight choices) is injected as explicit parameters.
-/

namespace BuybackMixer

/-- Lamports per SOL (from the web3 constant used throughout src/mixer.ts). -/
def LAMPORTS_PER_SOL : ℚ := 1000000000

/-! ### Pool selection (src/mixer.ts, executeWithdrawalTask, lines 489-504) -/

/-- The pool-selection scan of executeWithdrawalTask: walk the live pool
balances in order; for each pool compute
remainder = balance - lamportsRequired - 5000 and stop at the first pool
for which either `rentExemptionLamports ≤ remainder` (exact-amount
transfer, `mustSweep = false`) or `0 ≤ remainder < rentExemptionLamports`
(full sweep, `mustSweep = true`).  Returns the chosen pool's index and
the sweep flag, or none when no pool qualifies. -/
def selectPool : List ℤ → ℤ → ℤ → Option (ℕ × Bool)
  | [], _, _ => none
  | balance :: rest, lamportsRequired, rentExemptionLamports =>
    let remainder := balance - lamportsRequired - 5000
    if rentExemptionLamports ≤ remainder then some (0, false)
    else if 0 ≤ remainder ∧ remainder < rentExemptionLamports then some (0, true)
    else (selectPool rest lamportsRequired rentExemptionLamports).map
      (fun p => (p.1 + 1, p.2))

/-- Modelled from the spec's wording of pool selection (section 4.5), for
comparison with `selectPool`: first prefer the first pool whose remainder
is at least the rent-exemption floor (exact transfer); only if no pool at
all satisfies that rule, take the first pool whose remainder lies in
[0, floor) (full sweep). -/
def specSelectPool (poolBalances : List ℤ) (lamportsRequired rentExemptionLamports : ℤ) :
    Option (ℕ × Bool) :=
  match poolBalances.findIdx?
      (fun b => decide (rentExemptionLamports ≤ b - lamportsRequired - 5000)) with
  | some i => some (i, false)
  | none =>
    match poolBalances.findIdx?
        (fun b => decide (0 ≤ b - lamportsRequired - 5000 ∧
          b - lamportsRequired - 5000 < rentExemptionLamports)) with
    | some i => some (i, true)
    | none => none

/-! ### Randomized chunk split (src/mixer.ts, splitAmountRandomly, lines 55-66) -/

/-- Consecutive differences of a list, as taken by the loop
`for i in 1..randoms.length: parts.push(randoms[i] - randoms[i-1])`. -/
def adjacentDiffs : List ℚ → List ℚ
  | [] => []
  | [_] => []
  | b1 :: b2 :: rest => (b2 - b1) :: adjacentDiffs (b2 :: rest)

/-- A number in [0, 1] that ECMAScript renders in positional notation:
0 renders as the one-character string for zero, 1 as the one for one, and
a value in [1e-6, 1) as a string of the zero character, a point and the
fraction digits (exponential notation is used only below 1e-6). -/
def jsPositional (x : ℚ) : Prop :=
  x = 0 ∨ x = 1 ∨ (1 / 1000000 ≤ x ∧ x < 1)

/-- A number in (0, 1e-6), which ECMAScript renders in exponential
notation (mantissa, the letter e, a negative exponent). -/
def jsExponential (x : ℚ) : Prop :=
  0 < x ∧ x < 1 / 1000000

/-- The facts of JavaScript's comparator-less Array.prototype.sort on
numbers drawn from [0, 1]: elements are ordered by lexicographic
comparison of their string forms, which is a total preorder; on
positionally rendered values the string order coincides with numeric
order (digit strings without trailing zeros compare like the numbers);
and every exponentially rendered value, whose string starts with a
nonzero mantissa digit or extends the one-character string for one,
sorts strictly after every positionally rendered value.  The order among
two exponentially rendered values depends on the double-precision
shortest-representation algorithm and is deliberately left
unconstrained. -/
structure JsSortModel (le : ℚ → ℚ → Bool) : Prop where
  total : ∀ x y, le x y = true ∨ le y x = true
  trans : ∀ x y z, le x y = true → le y z = true → le x z = true
  pos_agree : ∀ x y, jsPositional x → jsPositional y → (le x y = true ↔ x ≤ y)
  exp_after : ∀ x y, jsExponential x → jsPositional y → le y x = true ∧ le x y = false

/-- Rendering rank used by the concrete comparator below: exponentially
rendered values sort after positionally rendered ones. -/
def jsRank (x : ℚ) : ℕ :=
  if 0 < x ∧ x < 1 / 1000000 then 1 else 0

/-- A concrete comparator realising JsSortModel: order first by rendering
rank, then numerically.  Its behaviour on pairs of exponentially
rendered values is a modelling choice that JsSortModel does not
constrain and that no theorem below depends on. -/
def jsLeWitness (x y : ℚ) : Bool :=
  decide (jsRank x < jsRank y ∨ (jsRank x = jsRank y ∧ x ≤ y))

instance (le : ℚ → ℚ → Bool) : DecidableRel (fun a b => le a b = true) :=
  fun a b => Bool.decEq (le a b) true

/-- splitAmountRandomly from src/mixer.ts: with `numParts - 1` injected
uniform draws, append the boundary points 0 and 1, sort with the
injected model `jsLe` of the comparator-less JavaScript sort, and scale
the consecutive differences by the total amount. -/
def splitAmountRandomly (totalAmount : ℚ) (numParts : ℕ) (draws : List ℚ)
    (jsLe : ℚ → ℚ → Bool) : List ℚ :=
  if numParts ≤ 0 then []
  else if numParts = 1 then [totalAmount]
  else
    let randoms := (draws ++ [0, 1]).insertionSort (fun a b => jsLe a b = true)
    (adjacentDiffs randoms).map (fun d => d * totalAmount)

/-! ### Pool funding (src/mixer.ts, initiateMixing stage 2, lines 326-431) -/

/-- The lamports required for completion:
floor((totalNeededLamports / LAMPORTS_PER_SOL + feeBufferSol) * LAMPORTS_PER_SOL). -/
def fundingRequiredLamports (totalNeededLamports : ℤ) (feeBufferSol : ℚ) : ℤ :=
  Rat.floor (((totalNeededLamports : ℚ) / LAMPORTS_PER_SOL + feeBufferSol) * LAMPORTS_PER_SOL)

/-- Outcome of the stage-2 pool-funding block. -/
inductive FundResult
  | noop
  | funded (sourceIdx : ℕ) (amountSol : ℚ) (poolIdx : ℕ)
  | aborted
deriving DecidableEq

/-- The source-wallet scan: index of the first source whose balance covers
the whole deficit plus the 5000-lamport transaction fee plus the
rent-exemption reserve. -/
def findFundingSource (deficitLamports rentReserve : ℤ) : List ℤ → Option ℕ
  | [] => none
  | b :: rest =>
    if deficitLamports + 5000 + rentReserve ≤ b then some 0
    else (findFundingSource deficitLamports rentReserve rest).map (· + 1)

/-- Stage 2 of initiateMixing: no-op when the aggregate pool balance is
within the 10000-lamport dust tolerance of the required amount; otherwise
fund the whole shortfall from the first qualifying source into one
randomly chosen pool, aborting when no single source qualifies. -/
def ensureFunded (poolBalances sourceBalances : List ℤ) (totalNeededLamports : ℤ)
    (feeBufferSol : ℚ) (rentReserve : ℤ) (poolChoice : ℕ) : FundResult :=
  let required := fundingRequiredLamports totalNeededLamports feeBufferSol
  let current := poolBalances.sum
  if required - 10000 ≤ current then .noop
  else
    let deficitLamports := required - current
    let deficitSOL : ℚ := (deficitLamports : ℚ) / LAMPORTS_PER_SOL
    if deficitSOL ≤ 0 then .noop
    else
      match findFundingSource deficitLamports rentReserve sourceBalances with
      | some i => .funded i deficitSOL poolChoice
      | none => .aborted

/-! ### Process-level control flow (src/mixer.ts, initiateMixing and main) -/

/-- Environment determining which branch initiateMixing takes: the loaded
wallet counts, whether the funding map parsed, the planner total, the
stage-2 funding inputs, and the per-task outcomes of stage 4. -/
structure MixEnv where
  sourceCount : ℕ
  targetCount : ℕ
  fundingMapOk : Bool
  totalNeededLamports : ℤ
  poolBalances : List ℤ
  sourceBalances : List ℤ
  feeBufferSol : ℚ
  rentReserve : ℤ
  poolChoice : ℕ
  taskResults : List Bool

/-- How initiateMixing returns.  Every constructor except `completed`
corresponds to an early `return` statement in src/mixer.ts. -/
inductive MixEnd
  | missingWallets
  | badFundingMap
  | nothingToDo
  | liquidityAbort
  | taskFailed
  | completed
deriving DecidableEq

/-- Control-flow skeleton of initiateMixing: every fatal condition is a
plain `return` (the function resolves normally), never a throw. -/
def initiateMixing (env : MixEnv) : MixEnd :=
  if env.sourceCount = 0 ∨ env.targetCount = 0 then .missingWallets
  else if env.fundingMapOk = false then .badFundingMap
  else if env.totalNeededLamports = 0 then .nothingToDo
  else
    match ensureFunded env.poolBalances env.sourceBalances env.totalNeededLamports
        env.feeBufferSol env.rentReserve env.poolChoice with
    | .aborted => .liquidityAbort
    | _ => if env.taskResults.all id then .completed else .taskFailed

/-- The `main` wrapper (src/mixer.ts lines 635-647): `process.exit(1)` only
when initiateMixing rejects with a thrown error; a normal resolution
leaves the default exit code 0. -/
def mainExitCode (run : Except Unit MixEnd) : ℕ :=
  match run with
  | .error _ => 1
  | .ok _ => 0

/-- A run in which initiateMixing resolves normally (as it does on every
fatal condition it detects itself). -/
def runMixer (env : MixEnv) : ℕ :=
  mainExitCode (Except.ok (initiateMixing env))

/-! ### Sweeping (src/mixer.ts, sweepWallet and sendSol, lines 68-131) -/

/-- Lamports actually moved by sendSol: Math.floor(amountSol * LAMPORTS_PER_SOL). -/
def sendSolLamports (amountSol : ℚ) : ℤ :=
  Rat.floor (amountSol * LAMPORTS_PER_SOL)

/-- sweepWallet: read the balance; if it does not exceed the 5000-lamport
fee, do nothing (null); otherwise send (balance - fee) / LAMPORTS_PER_SOL
SOL.  Returns the lamports transferred when a transaction was sent. -/
def sweepWallet (balance : ℤ) : Option ℤ :=
  if balance ≤ 5000 then none
  else some (sendSolLamports (((balance - 5000 : ℤ) : ℚ) / LAMPORTS_PER_SOL))

/-- The swept account's balance after a successful sweep: the old balance
minus the transferred lamports minus the 5000-lamport fee. -/
def balanceAfterSweep (balance : ℤ) : Option ℤ :=
  (sweepWallet balance).map (fun sent => balance - sent - 5000)

/-! ### Peel-wallet map (src/mixer.ts, lines 195-239) -/

/-- Resolution of a destination's dedicated peel wallet: return the mapped
wallet when the (persisted) map has the destination, else append a freshly
generated wallet to the map, persist it, and return it.  Addresses and
keypairs are modelled as naturals. -/
def resolvePeel (m : List (ℕ × ℕ)) (addr : ℕ) (fresh : ℕ) : List (ℕ × ℕ) × ℕ :=
  match List.lookup addr m with
  | some p => (m, p)
  | none => (m ++ [(addr, fresh)], fresh)

/-! ### Pool-wallet store (src/mixer.ts, getOrGenerateWallets, lines 133-154) -/

/-- getOrGenerateWallets: load the persisted wallets; when at least `count`
exist return the first `count` of them; otherwise append newly generated
wallets (taken from the injected stream) until `count` is reached. -/
def getOrGenerateWallets (existing : List ℕ) (count : ℕ) (freshStream : List ℕ) : List ℕ :=
  if existing.length ≥ count then existing.take count
  else existing ++ freshStream.take (count - existing.length)

/-! ### Unlock-timestamp registry (src/mixer.ts, lines 567-592) -/

/-- Membership test on the registry (walletUnlockTimestamps.has). -/
def hasAddr (reg : List (ℕ × ℤ)) (a : ℕ) : Bool :=
  reg.any (fun p => p.1 == a)

/-- Math.max over the registry's recorded timestamps (only used on a
nonempty registry). -/
def maxTs : List (ℕ × ℤ) → ℤ
  | [] => 0
  | p :: rest => rest.foldl (fun m q => max m q.2) p.2

/-- One evaluation of the unlock gate for a task's destination `a`:
already-unlocked destinations are ready; an empty registry unlocks the
destination unconditionally; otherwise the destination unlocks only when
at least `minSep` ms have elapsed since the most recent recorded unlock.
`nowCheck` and `nowSet` are the two Date.now() reads of the source (the
comparison read and the stored read). -/
def tryUnlock (reg : List (ℕ × ℤ)) (a : ℕ) (nowCheck nowSet minSep : ℤ) :
    List (ℕ × ℤ) × Bool :=
  if hasAddr reg a then (reg, true)
  else if reg.isEmpty then (reg ++ [(a, nowSet)], true)
  else if minSep ≤ nowCheck - maxTs reg then (reg ++ [(a, nowSet)], true)
  else (reg, false)

/-- Registries reachable by the scheduler loop: start empty, and evolve
only through `tryUnlock`, with wall-clock time non-decreasing between the
two Date.now() reads of a single gate evaluation. -/
inductive ReachableReg (minSep : ℤ) : List (ℕ × ℤ) → Prop
  | nil : ReachableReg minSep []
  | step (reg : List (ℕ × ℤ)) (a : ℕ) (nowCheck nowSet : ℤ)
      (hmono : nowCheck ≤ nowSet) (h : ReachableReg minSep reg) :
      ReachableReg minSep (tryUnlock reg a nowCheck nowSet minSep).1

/-! ### Big-integer random split (src/src/config.ts, randomSplit, lines 359-378) -/

/-- Loop body of randomSplit: every index but the last pushes
max(total * weight / weightSum, 1) (with bigint division truncating toward
zero) and deducts it from the running remainder; the last index pushes the
remainder itself. -/
def randomSplitAux (total weightSum : ℤ) : List ℤ → ℤ → List ℤ
  | [], _ => []
  | [_], remaining => [remaining]
  | w :: w2 :: ws, remaining =>
    let share := Int.tdiv (total * w) weightSum
    let amount := if 0 < share then share else 1
    amount :: randomSplitAux total weightSum (w2 :: ws) (remaining - amount)

/-- randomSplit from src/src/config.ts with the random weights injected:
empty for a non-positive part count, else the weighted allocation whose
last element absorbs whatever remains of the total. -/
def randomSplit (total : ℤ) (parts : ℤ) (weights : List ℤ) : List ℤ :=
  if parts ≤ 0 then []
  else randomSplitAux total (weights.foldl (fun acc w => acc + w) 0) weights total

/-! ### Continuous-distribution paid set (src/src/config.ts, runDistributionLoop) -/

/-- Result of attempting one peel distribution to a recipient:
`skippedFunds` when the dev wallet lacks lamports for the peel (the
`continue` before any transfer), `failed` when the transfer was attempted
and threw, `succeeded` when it confirmed. -/
inductive SendRes
  | skippedFunds
  | failed
  | succeeded

/-- JavaScript Set.add: append the element when absent. -/
def setAdd (s : List ℕ) (a : ℕ) : List ℕ :=
  if a ∈ s then s else s ++ [a]

/-- The send loop over the selected (recipient, amount) pairs: skip
sub-minimum amounts, skip recipients when funds are insufficient, and add
a recipient to the in-memory paid set exactly when its transfer
succeeded.  Returns the final paid set together with the recipients to
whom a transfer was actually attempted. -/
def runBatchSends (minDist : ℤ) (send : ℕ → SendRes) :
    List ℕ → List (ℕ × ℤ) → List ℕ × List ℕ
  | sent, [] => (sent, [])
  | sent, (r, amt) :: rest =>
    if amt < minDist then runBatchSends minDist send sent rest
    else
      match send r with
      | .skippedFunds => runBatchSends minDist send sent rest
      | .failed =>
        let o := runBatchSends minDist send sent rest
        (o.1, r :: o.2)
      | .succeeded =>
        let o := runBatchSends minDist send (setAdd sent r) rest
        (o.1, r :: o.2)

/-- Inputs of one iteration of the distribution loop that reach the send
phase: the fetched recipients, the newly acquired token amount, the
injected random weights, the batch-size limits, the minimum distributable
amount, and the outcome oracle of each send. -/
structure IterInput where
  recipients : List ℕ
  newlyAcquired : ℤ
  weights : List ℤ
  maxTargets : ℕ
  batchSize : ℕ
  minDist : ℤ
  send : ℕ → SendRes

/-- One iteration of the send phase of runDistributionLoop: filter the
recipients against the paid set, cap the selection, split the acquired
amount, drop sub-minimum allocations, and run the send loop.  Returns the
paid set persisted at the end of the iteration and the recipients to whom
a transfer was attempted. -/
def distributionIteration (sent : List ℕ) (it : IterInput) : List ℕ × List ℕ :=
  let eligible := it.recipients.filter (fun r => decide (r ∉ sent))
  let targetCount := min (min eligible.length it.maxTargets)
    (min it.batchSize it.recipients.length)
  let selected := eligible.take targetCount
  let splits := randomSplit it.newlyAcquired (selected.length : ℤ) it.weights
  let pairs := (selected.zip splits).filter (fun p => decide (it.minDist ≤ p.2))
  runBatchSends it.minDist it.send sent pairs

/-- The per-iteration trace of the loop: for each iteration, the paid set
it started from (the set persisted by the previous iteration, or loaded at
startup), the paid set it persists, and the recipients to whom a transfer
was attempted during it. -/
def runTrace : List IterInput → List ℕ → List (List ℕ × List ℕ × List ℕ)
  | [], _ => []
  | it :: rest, sent =>
    let o := distributionIteration sent it
    (sent, o.1, o.2) :: runTrace rest o.1

/-! ### Helper lemmas -/

/-- Rat.floor of an integer cast is the integer itself. -/
lemma ratFloor_int (n : ℤ) : Rat.floor ((n : ℚ)) = n := by
  rw [Rat.floor_def']
  simp

/-- With a zero fee buffer the required-lamports computation is exact. -/
lemma fundingRequiredLamports_zero_buffer (n : ℤ) : fundingRequiredLamports n 0 = n := by
  unfold fundingRequiredLamports
  rw [add_zero, div_mul_cancel₀ _ (by norm_num [LAMPORTS_PER_SOL] : LAMPORTS_PER_SOL ≠ 0)]
  exact ratFloor_int n

/-- Sum of a list scaled elementwise on the right. -/
lemma list_sum_map_mul (l : List ℚ) (c : ℚ) : (l.map (fun d => d * c)).sum = l.sum * c := by
  induction l with
  | nil => simp
  | cons a t ih => simp [ih, add_mul]

/-! ### C2: process exit codes -/

/-- C2 counterexample: with no source wallets loaded (a fatal condition of
the claim's list), initiateMixing resolves normally with
`missingWallets`, and the process exit code is 0, not non-zero — refuting
the claim that every fatal condition produces a non-zero exit and that
exit code zero occurs only on full completion. -/
theorem mixer_exit_zero_on_fatal_counterexample :
    initiateMixing ⟨0, 1, true, 1, [], [], 0, 0, 0, []⟩ = MixEnd.missingWallets
    ∧ runMixer ⟨0, 1, true, 1, [], [], 0, 0, 0, []⟩ = 0 := by
  constructor <;> rfl

/-- C2 amended: whenever initiateMixing resolves normally — which it does
on every fatal condition it detects itself (missing wallets, bad funding
map, liquidity exhaustion, failed or stranded withdrawal task) — the
process exits with code 0; the exit code is 1 exactly when an exception
escapes initiateMixing to the top-level catch. -/
theorem mixer_exit_code (env : MixEnv) (e : Unit) :
    runMixer env = 0 ∧ mainExitCode (Except.error e) = 1 :=
  ⟨rfl, rfl⟩

/-! ### C6: a successful sweep empties the account -/

/-- C6: when sweepWallet sends a transaction (balance strictly above the
5000-lamport fee), it transfers exactly balance - 5000 lamports, and the
account's balance immediately afterwards is exactly 0; when the balance
is at most the fee, no transaction is sent. -/
theorem sweepWallet_empties (balance : ℤ) :
    (5000 < balance →
      sweepWallet balance = some (balance - 5000)
      ∧ balanceAfterSweep balance = some 0)
    ∧ (balance ≤ 5000 → sweepWallet balance = none) := by
  constructor
  · intro h
    have hs : sweepWallet balance = some (balance - 5000) := by
      unfold sweepWallet sendSolLamports
      rw [if_neg (not_le.mpr h),
        div_mul_cancel₀ _ (by norm_num [LAMPORTS_PER_SOL] : LAMPORTS_PER_SOL ≠ 0)]
      rw [ratFloor_int]
    refine ⟨hs, ?_⟩
    unfold balanceAfterSweep
    rw [hs, Option.map_some']
    congr 1
    omega
  · intro h
    unfold sweepWallet
    rw [if_pos h]

/-- C6 witness at a concrete balance. -/
theorem sweepWallet_empties_witness :
    sweepWallet 1000000 = some (1000000 - 5000)
    ∧ balanceAfterSweep 1000000 = some 0 :=
  (sweepWallet_empties 1000000).1 (by decide)

/-! ### C8: pool-wallet store -/

/-- C8 counterexample: with wallets 1 and 2 persisted and a requested
count of 1, getOrGenerateWallets returns only wallet 1 — wallet 2 is
persisted but discarded from the working set, refuting the claim that all
previously persisted pool accounts are returned. -/
theorem getOrGenerateWallets_counterexample :
    getOrGenerateWallets [1, 2] 1 [9] = [1]
    ∧ (2 ∈ ([1, 2] : List ℕ))
    ∧ 2 ∉ getOrGenerateWallets [1, 2] 1 [9] := by
  decide

/-- C8 amended: when at least `count` wallets are persisted,
getOrGenerateWallets returns exactly the first `count` of them (persisted
wallets beyond `count` are omitted from the working set, though they stay
persisted); only when strictly fewer than `count` are persisted does it
generate new wallets, returning every persisted wallet followed by the
newly generated ones, for a total of `count` when enough can be
generated. -/
theorem getOrGenerateWallets_spec (existing : List ℕ) (count : ℕ) (fresh : List ℕ) :
    (count ≤ existing.length →
      getOrGenerateWallets existing count fresh = existing.take count)
    ∧ (existing.length < count →
        getOrGenerateWallets existing count fresh
          = existing ++ fresh.take (count - existing.length)
        ∧ (∀ w ∈ existing, w ∈ getOrGenerateWallets existing count fresh)
        ∧ (count - existing.length ≤ fresh.length →
            (getOrGenerateWallets existing count fresh).length = count)) := by
  constructor
  · intro h
    unfold getOrGenerateWallets
    rw [if_pos h]
  · intro h
    have hneg : ¬ existing.length ≥ count := not_le.mpr h
    have he : getOrGenerateWallets existing count fresh
        = existing ++ fresh.take (count - existing.length) := by
      unfold getOrGenerateWallets
      rw [if_neg hneg]
    refine ⟨he, ?_, ?_⟩
    · intro w hw
      rw [he]
      exact List.mem_append_left _ hw
    · intro hf
      rw [he, List.length_append, List.length_take]
      omega

/-- C8 witness: two persisted wallets, a requested count of three, and a
sufficient fresh stream. -/
theorem getOrGenerateWallets_spec_witness :
    getOrGenerateWallets [1, 2] 3 [8, 9] = [1, 2] ++ [8, 9].take 1
    ∧ (getOrGenerateWallets [1, 2] 3 [8, 9]).length = 3 :=
  ⟨((getOrGenerateWallets_spec [1, 2] 3 [8, 9]).2 (by decide)).1,
   ((getOrGenerateWallets_spec [1, 2] 3 [8, 9]).2 (by decide)).2.2 (by decide)⟩

/-! ### C10: the distribution variant's big-integer random split -/

/-- randomSplitAux produces one allocation per weight. -/
lemma randomSplitAux_length (total wsum : ℤ) :
    ∀ (ws : List ℤ) (rem : ℤ), ws ≠ [] →
      (randomSplitAux total wsum ws rem).length = ws.length := by
  intro ws
  induction ws with
  | nil => simp
  | cons w ws ih =>
    intro rem _
    cases ws with
    | nil => simp [randomSplitAux]
    | cons w2 ws2 =>
      simp only [randomSplitAux, List.length_cons]
      rw [ih _ (by simp)]
      simp

/-- The allocations of randomSplitAux telescope to the running remainder. -/
lemma randomSplitAux_sum (total wsum : ℤ) :
    ∀ (ws : List ℤ) (rem : ℤ), ws ≠ [] →
      (randomSplitAux total wsum ws rem).sum = rem := by
  intro ws
  induction ws with
  | nil => simp
  | cons w ws ih =>
    intro rem _
    cases ws with
    | nil => simp [randomSplitAux]
    | cons w2 ws2 =>
      simp only [randomSplitAux, List.sum_cons]
      rw [ih _ (by simp)]
      ring

/-- C10: randomSplit returns the empty list for a non-positive part
count; for `parts ≥ 1` with one injected weight per part it returns
exactly `parts` allocations whose exact big-integer sum is the total, the
last allocation absorbing the remainder left by the earlier ones; and it
does not guarantee positivity — splitting a total of 1 into 2 parts
yields [1, 0], whose final allocation is 0. -/
theorem randomSplit_spec (total parts : ℤ) (weights : List ℤ) :
    (parts ≤ 0 → randomSplit total parts weights = [])
    ∧ (1 ≤ parts → weights.length = parts.toNat →
        (randomSplit total parts weights).length = parts.toNat
        ∧ (randomSplit total parts weights).sum = total
        ∧ (randomSplit total parts weights).getLast?
            = some (total - (randomSplit total parts weights).dropLast.sum))
    ∧ randomSplit 1 2 [1, 1] = [1, 0] := by
  refine ⟨?_, ?_, by decide⟩
  · intro h
    unfold randomSplit
    rw [if_pos h]
  · intro h1 h2
    have hne : weights ≠ [] := by
      intro e
      rw [e] at h2
      simp at h2
      omega
    have he : randomSplit total parts weights
        = randomSplitAux total (weights.foldl (fun acc w => acc + w) 0) weights total := by
      unfold randomSplit
      rw [if_neg (by omega)]
    have hlen : (randomSplit total parts weights).length = parts.toNat := by
      rw [he, randomSplitAux_length _ _ _ _ hne, h2]
    have hsum : (randomSplit total parts weights).sum = total := by
      rw [he, randomSplitAux_sum _ _ _ _ hne]
    refine ⟨hlen, hsum, ?_⟩
    have hne2 : randomSplit total parts weights ≠ [] := by
      intro e
      rw [e] at hlen
      simp at hlen
      omega
    rw [List.getLast?_eq_getLast _ hne2]
    congr 1
    have hsplit := List.dropLast_append_getLast hne2
    have := congrArg List.sum hsplit
    rw [List.sum_append, List.sum_cons, List.sum_nil, hsum] at this
    omega

/-- C10 witness: splitting 10 into 2 parts with concrete weights. -/
theorem randomSplit_spec_witness :
    (randomSplit 10 2 [3, 1]).length = (2 : ℤ).toNat
    ∧ (randomSplit 10 2 [3, 1]).sum = 10 :=
  ⟨((randomSplit_spec 10 2 [3, 1]).2.1 (by decide) (by decide)).1,
   ((randomSplit_spec 10 2 [3, 1]).2.1 (by decide) (by decide)).2.1⟩

/-! ### C1: pool selection -/

/-- C1 counterexample: with pool balances [45000, 100000], required amount
40000, flat fee 5000 and rent floor 8900, pool 0 is sweep-eligible
(remainder 0) and pool 1 is exact-eligible (remainder 55000 ≥ 8900).  The
code selects pool 0 with a full sweep, whereas the claimed two-pass
preference would select pool 1 with an exact-amount transfer. -/
theorem selectPool_two_pass_counterexample :
    selectPool [45000, 100000] 40000 8900 = some (0, true)
    ∧ specSelectPool [45000, 100000] 40000 8900 = some (1, false)
    ∧ selectPool [45000, 100000] 40000 8900
        ≠ specSelectPool [45000, 100000] 40000 8900 := by
  decide

/-- C1 amended: pool selection is a single scan that stops at the first
pool whose remainder = balance - amountRequired - flatFee is nonnegative;
that pool receives an exact-amount transfer when its remainder is at
least the rent-exemption floor and a full sweep when the remainder lies
in [0, floor) — so a sweep-eligible pool earlier in the list is chosen
ahead of an exact-eligible pool later in the list.  Selection fails only
when every pool's remainder is negative. -/
theorem selectPool_first_nonneg_remainder (req rent : ℤ) (hrent : 0 ≤ rent) (l : List ℤ) :
    (∀ i swp, selectPool l req rent = some (i, swp) →
      ∃ b, l[i]? = some b ∧ 0 ≤ b - req - 5000 ∧
        (swp = true ↔ b - req - 5000 < rent) ∧
        ∀ j, j < i → ∀ bj, l[j]? = some bj → bj - req - 5000 < 0)
    ∧ (selectPool l req rent = none → ∀ b ∈ l, b - req - 5000 < 0) := by
  induction l with
  | nil =>
    constructor
    · intro i swp h
      simp [selectPool] at h
    · intro _ b hb
      simp at hb
  | cons b rest ih =>
    constructor
    · intro i swp h
      simp only [selectPool] at h
      by_cases h1 : rent ≤ b - req - 5000
      · rw [if_pos h1] at h
        injection h with h2
        injection h2 with hi hswp
        subst hi
        subst hswp
        refine ⟨b, by simp, le_trans hrent h1, iff_of_false (by simp) (not_lt.mpr h1), ?_⟩
        intro j hj
        exact absurd hj (Nat.not_lt_zero j)
      · by_cases h2 : 0 ≤ b - req - 5000 ∧ b - req - 5000 < rent
        · rw [if_neg h1, if_pos h2] at h
          injection h with h3
          injection h3 with hi hswp
          subst hi
          subst hswp
          refine ⟨b, by simp, h2.1, iff_of_true rfl h2.2, ?_⟩
          intro j hj
          exact absurd hj (Nat.not_lt_zero j)
        · rw [if_neg h1, if_neg h2] at h
          obtain ⟨p, hp, hmap⟩ := Option.map_eq_some'.mp h
          injection hmap with hi hswp
          subst hi
          subst hswp
          obtain ⟨b', hb', hge, hiff, hprev⟩ := ih.1 p.1 p.2 hp
          refine ⟨b', by simpa using hb', hge, hiff, ?_⟩
          intro j hj bj hbj
          cases j with
          | zero =>
            have hb0 : b = bj := by simpa using hbj
            subst hb0
            have h2' : ¬ (0 ≤ b - req - 5000) := fun hpos => h2 ⟨hpos, not_le.mp h1⟩
            omega
          | succ j' =>
            exact hprev j' (by omega) bj (by simpa using hbj)
    · intro h x hx
      simp only [selectPool] at h
      by_cases h1 : rent ≤ b - req - 5000
      · rw [if_pos h1] at h
        exact absurd h (by simp)
      · by_cases h2 : 0 ≤ b - req - 5000 ∧ b - req - 5000 < rent
        · rw [if_neg h1, if_pos h2] at h
          exact absurd h (by simp)
        · rw [if_neg h1, if_neg h2] at h
          have hrec := Option.map_eq_none'.mp h
          rcases List.mem_cons.mp hx with rfl | hx'
          · have h2' : ¬ (0 ≤ x - req - 5000) := fun hpos => h2 ⟨hpos, not_le.mp h1⟩
            omega
          · exact ih.2 hrec x hx'

/-- C1 amended witness: a single under-funded pool makes selection fail,
so every pool's remainder is negative at the concrete input. -/
theorem selectPool_first_nonneg_remainder_witness :
    (100 : ℤ) - 200000 - 5000 < 0 :=
  (selectPool_first_nonneg_remainder 200000 8900 (by decide) [100]).2 (by decide) 100 (by decide)

/-! ### C5: pool funding -/

/-- The source scan finds nothing exactly when every source balance is
short of deficit + fee + rent reserve. -/
lemma findFundingSource_eq_none_iff (d r : ℤ) :
    ∀ l : List ℤ, findFundingSource d r l = none ↔ ∀ b ∈ l, b < d + 5000 + r := by
  intro l
  induction l with
  | nil => simp [findFundingSource]
  | cons b rest ih =>
    simp only [findFundingSource]
    by_cases hb : d + 5000 + r ≤ b
    · rw [if_pos hb]
      refine iff_of_false (by simp) ?_
      intro hall
      exact absurd hb (not_le.mpr (hall b (by simp)))
    · rw [if_neg hb, Option.map_eq_none', ih]
      constructor
      · intro h x hx
        rcases List.mem_cons.mp hx with rfl | hx'
        · exact not_le.mp hb
        · exact h x hx'
      · intro h x hx
        exact h x (List.mem_cons_of_mem _ hx)

/-- The source scan returns the first qualifying index. -/
lemma findFundingSource_first (d r : ℤ) :
    ∀ (l : List ℤ) (i : ℕ) (b : ℤ), l[i]? = some b → d + 5000 + r ≤ b →
      (∀ j bj, j < i → l[j]? = some bj → bj < d + 5000 + r) →
      findFundingSource d r l = some i := by
  intro l
  induction l with
  | nil =>
    intro i b hb
    simp at hb
  | cons hd tl ih =>
    intro i b hb hq hprev
    cases i with
    | zero =>
      have hhd : hd = b := by simpa using hb
      subst hhd
      simp only [findFundingSource]
      rw [if_pos hq]
    | succ i' =>
      simp only [findFundingSource]
      by_cases hhd : d + 5000 + r ≤ hd
      · exact absurd (hprev 0 hd (Nat.succ_pos i') (by simp)) (not_lt.mpr hhd)
      · rw [if_neg hhd,
          ih i' b (by simpa using hb) hq
            (fun j bj hj hbj => hprev (j + 1) bj (by omega) (by simpa using hbj))]
        rfl

/-- C5: stage-2 funding is a no-op when the aggregate pool balance is
within the dust tolerance of the required amount; otherwise it aborts
when no single source covers the whole shortfall plus its fee and rent
reserve, and funds the entire shortfall from the first qualifying source
into the one randomly chosen pool (no multi-source split). -/
theorem ensureFunded_spec (pools sources : List ℤ) (needed : ℤ) (buf : ℚ) (rent : ℤ)
    (choice : ℕ) :
    (fundingRequiredLamports needed buf - 10000 ≤ pools.sum →
      ensureFunded pools sources needed buf rent choice = FundResult.noop)
    ∧ (pools.sum < fundingRequiredLamports needed buf - 10000 →
        ((∀ b ∈ sources, b < (fundingRequiredLamports needed buf - pools.sum) + 5000 + rent) →
          ensureFunded pools sources needed buf rent choice = FundResult.aborted)
        ∧ (∀ i b, sources[i]? = some b →
            (fundingRequiredLamports needed buf - pools.sum) + 5000 + rent ≤ b →
            (∀ j bj, j < i → sources[j]? = some bj →
              bj < (fundingRequiredLamports needed buf - pools.sum) + 5000 + rent) →
            ensureFunded pools sources needed buf rent choice
              = FundResult.funded i
                  (((fundingRequiredLamports needed buf - pools.sum : ℤ) : ℚ) / LAMPORTS_PER_SOL)
                  choice)) := by
  constructor
  · intro h
    simp only [ensureFunded]
    rw [if_pos h]
  · intro hlt
    have hneg : ¬ (fundingRequiredLamports needed buf - 10000 ≤ pools.sum) := not_le.mpr hlt
    have hdef : (0 : ℤ) < fundingRequiredLamports needed buf - pools.sum := by omega
    have hpos :
        ¬ (((fundingRequiredLamports needed buf - pools.sum : ℤ) : ℚ) / LAMPORTS_PER_SOL ≤ 0) := by
      rw [not_le]
      apply div_pos
      · exact_mod_cast hdef
      · norm_num [LAMPORTS_PER_SOL]
    constructor
    · intro hall
      simp only [ensureFunded]
      rw [if_neg hneg, if_neg hpos, (findFundingSource_eq_none_iff _ _ sources).mpr hall]
    · intro i b hb hq hprev
      simp only [ensureFunded]
      rw [if_neg hneg, if_neg hpos, findFundingSource_first _ _ sources i b hb hq hprev]

/-- C5 witness: an already-funded pool at a concrete input is a no-op. -/
theorem ensureFunded_spec_witness :
    ensureFunded [2000000] [] 1000000 0 0 0 = FundResult.noop := by
  apply (ensureFunded_spec [2000000] [] 1000000 0 0 0).1
  rw [fundingRequiredLamports_zero_buffer]
  decide

/-! ### C7: peel-wallet resolution -/

/-- Looking a key up past a list in which it does not occur. -/
lemma lookup_append_right {l1 l2 : List (ℕ × ℕ)} {a : ℕ} (h : List.lookup a l1 = none) :
    List.lookup a (l1 ++ l2) = List.lookup a l2 := by
  induction l1 with
  | nil => rfl
  | cons p t ih =>
    rw [List.cons_append, List.lookup_cons] at *
    cases hba : (a == p.1) with
    | true => simp [hba] at h
    | false =>
      simp only [hba] at h ⊢
      exact ih h

/-- A key with no lookup result is not among the stored keys. -/
lemma lookup_none_not_mem_keys {l : List (ℕ × ℕ)} {a : ℕ} (h : List.lookup a l = none) :
    a ∉ l.map Prod.fst := by
  induction l with
  | nil => simp
  | cons p t ih =>
    rw [List.lookup_cons] at h
    cases hba : (a == p.1) with
    | true => simp [hba] at h
    | false =>
      simp only [hba] at h
      simp only [List.map_cons, List.mem_cons]
      rintro (rfl | hm)
      · simp at hba
      · exact ih h hm

/-- Appending a genuinely new element keeps a list duplicate-free. -/
lemma nodup_append_singleton {l : List ℕ} {a : ℕ} (h1 : l.Nodup) (h2 : a ∉ l) :
    (l ++ [a]).Nodup := by
  rw [List.nodup_append]
  refine ⟨h1, List.nodup_singleton a, ?_⟩
  intro x hx hxa
  simp at hxa
  subst hxa
  exact h2 hx

/-- C7: resolving the peel wallet for a destination a second time — on the
map state the first resolution persisted, hence also after a restart that
reloads that state — returns the identical wallet and leaves the map
unchanged; the map keeps unique destinations, and (since freshly
generated wallets are new) unique peel wallets, so the persisted map
stays a 1:1 destination-to-peel mapping. -/
theorem resolvePeel_idempotent_one_to_one (m : List (ℕ × ℕ)) (addr fresh fresh2 : ℕ) :
    resolvePeel (resolvePeel m addr fresh).1 addr fresh2
      = ((resolvePeel m addr fresh).1, (resolvePeel m addr fresh).2)
    ∧ ((m.map Prod.fst).Nodup → ((resolvePeel m addr fresh).1.map Prod.fst).Nodup)
    ∧ ((m.map Prod.snd).Nodup → fresh ∉ m.map Prod.snd →
        ((resolvePeel m addr fresh).1.map Prod.snd).Nodup) := by
  cases h : List.lookup addr m with
  | some p =>
    have r1 : resolvePeel m addr fresh = (m, p) := by
      simp only [resolvePeel, h]
    rw [r1]
    refine ⟨?_, fun hk => hk, fun hv _ => hv⟩
    simp only [resolvePeel, h]
  | none =>
    have r1 : resolvePeel m addr fresh = (m ++ [(addr, fresh)], fresh) := by
      simp only [resolvePeel, h]
    rw [r1]
    refine ⟨?_, ?_, ?_⟩
    · simp only [resolvePeel]
      rw [lookup_append_right h]
      simp [List.lookup]
    · intro hk
      rw [List.map_append]
      exact nodup_append_singleton hk (lookup_none_not_mem_keys h)
    · intro hv hf
      rw [List.map_append]
      exact nodup_append_singleton hv hf

/-- C7 witness on the empty persisted map. -/
theorem resolvePeel_idempotent_witness :
    resolvePeel (resolvePeel [] 1 7).1 1 9 = ((resolvePeel [] 1 7).1, (resolvePeel [] 1 7).2)
    ∧ ((resolvePeel ([] : List (ℕ × ℕ)) 1 7).1.map Prod.fst).Nodup
    ∧ ((resolvePeel ([] : List (ℕ × ℕ)) 1 7).1.map Prod.snd).Nodup := by
  have h := resolvePeel_idempotent_one_to_one [] 1 7 9
  exact ⟨h.1, h.2.1 (by decide), h.2.2 (by decide) (by decide)⟩

/-! ### C3: the randomized chunk split -/

/-- adjacentDiffs shortens a list by one. -/
lemma adjacentDiffs_length : ∀ l : List ℚ, (adjacentDiffs l).length = l.length - 1 := by
  intro l
  induction l with
  | nil => simp [adjacentDiffs]
  | cons a t ih =>
    cases t with
    | nil => simp [adjacentDiffs]
    | cons b t2 =>
      simp only [adjacentDiffs, List.length_cons] at ih ⊢
      omega

/-- The consecutive differences of a nonempty list telescope to last minus
first. -/
lemma adjacentDiffs_sum :
    ∀ (l : List ℚ) (a : ℚ),
      (adjacentDiffs (a :: l)).sum = (a :: l).getLast (List.cons_ne_nil a l) - a := by
  intro l
  induction l with
  | nil =>
    intro a
    simp [adjacentDiffs]
  | cons b t ih =>
    intro a
    simp only [adjacentDiffs, List.sum_cons]
    rw [ih b, List.getLast_cons (List.cons_ne_nil b t)]
    ring

/-- Consecutive differences of a sorted list are nonnegative. -/
lemma adjacentDiffs_nonneg :
    ∀ l : List ℚ, l.Sorted (· ≤ ·) → ∀ d ∈ adjacentDiffs l, 0 ≤ d := by
  intro l
  induction l with
  | nil =>
    intro _ d hd
    simp [adjacentDiffs] at hd
  | cons a t ih =>
    intro hs d hd
    cases t with
    | nil => simp [adjacentDiffs] at hd
    | cons b t2 =>
      simp only [adjacentDiffs, List.mem_cons] at hd
      obtain ⟨hab, hrest⟩ := List.sorted_cons.mp hs
      rcases hd with rfl | hd'
      · have hb : a ≤ b := hab b (by simp)
        linarith
      · exact ih hrest d hd'

/-- The head of a sorted list bounds every member from below. -/
lemma sorted_head_le {a x : ℚ} {l : List ℚ} (hs : (a :: l).Sorted (· ≤ ·))
    (hx : x ∈ a :: l) : a ≤ x := by
  rcases List.mem_cons.mp hx with rfl | hx'
  · exact le_refl x
  · exact (List.sorted_cons.mp hs).1 x hx'

/-- The last element of a sorted list bounds every member from above. -/
lemma le_sorted_getLast :
    ∀ (l : List ℚ) (hne : l ≠ []), l.Sorted (· ≤ ·) →
      ∀ x ∈ l, x ≤ l.getLast hne := by
  intro l
  induction l with
  | nil =>
    intro hne
    exact absurd rfl hne
  | cons a t ih =>
    intro hne hs x hx
    cases t with
    | nil =>
      rcases List.mem_cons.mp hx with rfl | h0
      · exact le_of_eq rfl
      · simp at h0
    | cons b t2 =>
      rw [List.getLast_cons (List.cons_ne_nil b t2)]
      rcases List.mem_cons.mp hx with rfl | hx'
      · have hxb : x ≤ b := (List.sorted_cons.mp hs).1 b (by simp)
        exact le_trans hxb
          (ih (List.cons_ne_nil b t2) (List.sorted_cons.mp hs).2 b (by simp))
      · exact ih (List.cons_ne_nil b t2) (List.sorted_cons.mp hs).2 x hx'

/-- A positionally rendered value has rank 0. -/
lemma jsRank_positional {x : ℚ} (hx : jsPositional x) : jsRank x = 0 := by
  unfold jsRank
  rw [if_neg]
  rcases hx with rfl | rfl | ⟨h1, h2⟩
  · intro h
    exact lt_irrefl 0 h.1
  · intro h
    norm_num at h
  · intro h
    exact absurd h1 (not_le.mpr h.2)

/-- An exponentially rendered value has rank 1. -/
lemma jsRank_exponential {x : ℚ} (hx : jsExponential x) : jsRank x = 1 := by
  unfold jsRank
  exact if_pos ⟨hx.1, hx.2⟩

/-- The concrete comparator satisfies every constraint JsSortModel
asserts about JavaScript's default sort on values from [0, 1]. -/
lemma jsLeWitness_model : JsSortModel jsLeWitness := by
  constructor
  · intro x y
    simp only [jsLeWitness, decide_eq_true_eq]
    rcases Nat.lt_trichotomy (jsRank x) (jsRank y) with h | h | h
    · exact Or.inl (Or.inl h)
    · rcases le_total x y with hxy | hxy
      · exact Or.inl (Or.inr ⟨h, hxy⟩)
      · exact Or.inr (Or.inr ⟨h.symm, hxy⟩)
    · exact Or.inr (Or.inl h)
  · intro x y z hxy hyz
    simp only [jsLeWitness, decide_eq_true_eq] at hxy hyz ⊢
    rcases hxy with h1 | ⟨h1, h1q⟩
    · rcases hyz with h2 | ⟨h2, _⟩
      · exact Or.inl (lt_trans h1 h2)
      · exact Or.inl (h2 ▸ h1)
    · rcases hyz with h2 | ⟨h2, h2q⟩
      · exact Or.inl (h1 ▸ h2)
      · exact Or.inr ⟨h1.trans h2, le_trans h1q h2q⟩
  · intro x y hx hy
    unfold jsLeWitness
    rw [decide_eq_true_eq, jsRank_positional hx, jsRank_positional hy]
    constructor
    · rintro (h | ⟨_, h⟩)
      · exact absurd h (lt_irrefl 0)
      · exact h
    · intro h
      exact Or.inr ⟨rfl, h⟩
  · intro x y hx hy
    constructor
    · unfold jsLeWitness
      rw [decide_eq_true_eq, jsRank_positional hy, jsRank_exponential hx]
      exact Or.inl Nat.zero_lt_one
    · unfold jsLeWitness
      rw [decide_eq_false_iff_not, jsRank_positional hy, jsRank_exponential hx]
      rintro (h | ⟨h, _⟩)
      · exact absurd h (by decide)
      · exact absurd h (by decide)

/-- C3 amended: for every deficit d > 0 and chunk count n ≥ 1, under any
comparator consistent with JavaScript's default string-order sort, and
with the n - 1 injected draws all drawn from the positionally rendered
part of [0,1) (each draw is 0 or at least 1e-6), splitAmountRandomly
returns exactly n parts summing exactly to d, and every part is
nonnegative.  (Strict positivity fails even there: a draw equal to 0, or
two coinciding draws, produces a zero-sized part; and for a draw below
1e-6 the string sort breaks the split entirely, see the
counterexample.) -/
theorem splitAmountRandomly_parts (jsLe : ℚ → ℚ → Bool) (hm : JsSortModel jsLe)
    (d : ℚ) (n : ℕ) (draws : List ℚ)
    (hd : 0 < d) (hn : 1 ≤ n) (hlen : draws.length = n - 1)
    (hdraws : ∀ x ∈ draws, (x = 0 ∨ 1 / 1000000 ≤ x) ∧ x < 1) :
    (splitAmountRandomly d n draws jsLe).length = n
    ∧ (splitAmountRandomly d n draws jsLe).sum = d
    ∧ ∀ p ∈ splitAmountRandomly d n draws jsLe, 0 ≤ p := by
  rcases Nat.lt_or_ge n 2 with h2 | h2
  · have hn1 : n = 1 := by omega
    subst hn1
    refine ⟨by simp [splitAmountRandomly], by simp [splitAmountRandomly], ?_⟩
    intro p hp
    simp [splitAmountRandomly] at hp
    rw [hp]
    exact le_of_lt hd
  · have hc1 : ¬ (n ≤ 0) := by omega
    have hc2 : ¬ (n = 1) := by omega
    have he : splitAmountRandomly d n draws jsLe
        = (adjacentDiffs ((draws ++ [0, 1]).insertionSort
            (fun a b => jsLe a b = true))).map (fun x => x * d) := by
      simp only [splitAmountRandomly, if_neg hc1, if_neg hc2]
    haveI : IsTotal ℚ (fun a b => jsLe a b = true) := ⟨hm.total⟩
    haveI : IsTrans ℚ (fun a b => jsLe a b = true) := ⟨hm.trans⟩
    set s := (draws ++ ([0, 1] : List ℚ)).insertionSort (fun a b => jsLe a b = true)
      with hsdef
    have hperm : List.Perm s (draws ++ [0, 1]) := List.perm_insertionSort _ _
    have hsortedJs : s.Sorted (fun a b => jsLe a b = true) :=
      List.sorted_insertionSort _ _
    have hpos : ∀ x ∈ s, jsPositional x := by
      intro x hx
      rcases List.mem_append.mp (hperm.mem_iff.mp hx) with hxd | hx01
      · obtain ⟨hx0, hx1⟩ := hdraws x hxd
        rcases hx0 with rfl | hxe
        · exact Or.inl rfl
        · exact Or.inr (Or.inr ⟨hxe, hx1⟩)
      · have : x = 0 ∨ x = 1 := by simpa using hx01
        rcases this with rfl | rfl
        · exact Or.inl rfl
        · exact Or.inr (Or.inl rfl)
    have hsorted : s.Sorted (· ≤ ·) :=
      List.Pairwise.imp_of_mem
        (fun ha hb hr => (hm.pos_agree _ _ (hpos _ ha) (hpos _ hb)).mp hr) hsortedJs
    have hslen : s.length = n + 1 := by
      rw [hperm.length_eq]
      simp only [List.length_append, hlen]
      simp
      omega
    have hmem01 : ∀ x ∈ s, 0 ≤ x ∧ x ≤ 1 := by
      intro x hx
      rcases List.mem_append.mp (hperm.mem_iff.mp hx) with hxd | hx01
      · obtain ⟨hx0, hx1⟩ := hdraws x hxd
        rcases hx0 with rfl | hxe
        · norm_num
        · exact ⟨le_trans (by norm_num) hxe, le_of_lt hx1⟩
      · have : x = 0 ∨ x = 1 := by simpa using hx01
        rcases this with rfl | rfl
        · norm_num
        · norm_num
    have h0s : (0 : ℚ) ∈ s := hperm.mem_iff.mpr (by simp)
    have h1s : (1 : ℚ) ∈ s := hperm.mem_iff.mpr (by simp)
    cases hsc : s with
    | nil =>
      rw [hsc] at hslen
      simp at hslen
    | cons a t =>
      rw [hsc] at hsorted hmem01 h0s h1s hslen
      have hhead : a = 0 :=
        le_antisymm (sorted_head_le hsorted h0s) (hmem01 a (by simp)).1
      have hlast : (a :: t).getLast (List.cons_ne_nil a t) = 1 :=
        le_antisymm (hmem01 _ (List.getLast_mem _)).2
          (le_sorted_getLast _ _ hsorted 1 h1s)
      refine ⟨?_, ?_, ?_⟩
      · rw [he, hsc, List.length_map, adjacentDiffs_length, hslen]
        omega
      · rw [he, hsc, list_sum_map_mul, adjacentDiffs_sum, hlast, hhead]
        ring
      · intro p hp
        rw [he, hsc] at hp
        obtain ⟨x, hx, rfl⟩ := List.mem_map.mp hp
        exact mul_nonneg (adjacentDiffs_nonneg _ hsorted x hx) (le_of_lt hd)

/-- C3 amended witness at a concrete deficit, chunk count and the
concrete comparator model. -/
theorem splitAmountRandomly_parts_witness :
    (splitAmountRandomly 1 1 [] jsLeWitness).length = 1
    ∧ (splitAmountRandomly 1 1 [] jsLeWitness).sum = 1 := by
  have h := splitAmountRandomly_parts jsLeWitness jsLeWitness_model 1 1 []
    (by norm_num) (by decide) rfl (by simp)
  exact ⟨h.1, h.2.1⟩

/-- C3 counterexample: the draw 9e-7 lies in [0,1) but is rendered in
exponential notation, so JavaScript's comparator-less sort places it
after the boundary point 1; splitting a deficit of 1 into 2 chunks with
that draw therefore yields the parts [1, 9e-7 - 1]: the second part is
negative (not strictly positive) and the parts sum to 9e-7, nowhere near
the deficit — refuting the claimed positivity and sum for all draws in
[0,1). -/
theorem splitAmountRandomly_string_sort_counterexample :
    ((0 : ℚ) ≤ 9 / 10000000 ∧ (9 / 10000000 : ℚ) < 1)
    ∧ jsExponential (9 / 10000000)
    ∧ splitAmountRandomly 1 2 [9 / 10000000] jsLeWitness = [1, 9 / 10000000 - 1]
    ∧ (splitAmountRandomly 1 2 [9 / 10000000] jsLeWitness).sum ≠ 1
    ∧ ¬ (∀ p ∈ splitAmountRandomly 1 2 [9 / 10000000] jsLeWitness, 0 < p) := by
  have h9exp : jsExponential (9 / 10000000) := by
    unfold jsExponential
    norm_num
  have hrank9 : jsRank (9 / 10000000) = 1 := jsRank_exponential h9exp
  have hrank0 : jsRank 0 = 0 := jsRank_positional (Or.inl rfl)
  have hrank1 : jsRank 1 = 0 := jsRank_positional (Or.inr (Or.inl rfl))
  have hc01 : jsLeWitness 0 1 = true := by
    simp only [jsLeWitness, decide_eq_true_eq, hrank0, hrank1]
    norm_num
  have hc90 : jsLeWitness (9 / 10000000) 0 = false := by
    simp only [jsLeWitness, hrank9, hrank0, decide_eq_false_iff_not]
    norm_num
  have hc91 : jsLeWitness (9 / 10000000) 1 = false := by
    simp only [jsLeWitness, hrank9, hrank1, decide_eq_false_iff_not]
    norm_num
  have he : splitAmountRandomly 1 2 [9 / 10000000] jsLeWitness
      = [1, 9 / 10000000 - 1] := by
    simp only [splitAmountRandomly]
    norm_num [List.insertionSort, List.orderedInsert, adjacentDiffs, hc01, hc90, hc91]
  refine ⟨⟨by norm_num, by norm_num⟩, h9exp, he, ?_, ?_⟩
  · rw [he]
    norm_num
  · intro hall
    have hneg := hall (9 / 10000000 - 1) (by rw [he]; simp)
    norm_num at hneg

/-! ### C4: the unlock-timestamp registry -/

/-- A fold of max never drops below its accumulator. -/
lemma foldl_max_le_acc :
    ∀ (l : List (ℕ × ℤ)) (acc : ℤ), acc ≤ l.foldl (fun m q => max m q.2) acc := by
  intro l
  induction l with
  | nil =>
    intro acc
    exact le_refl acc
  | cons p t ih =>
    intro acc
    rw [List.foldl_cons]
    exact le_trans (le_max_left acc p.2) (ih (max acc p.2))

/-- A fold of max bounds every member's timestamp. -/
lemma mem_le_foldl_max :
    ∀ (l : List (ℕ × ℤ)) (acc : ℤ) (q : ℕ × ℤ),
      q ∈ l → q.2 ≤ l.foldl (fun m q => max m q.2) acc := by
  intro l
  induction l with
  | nil =>
    intro acc q hq
    simp at hq
  | cons p t ih =>
    intro acc q hq
    rw [List.foldl_cons]
    rcases List.mem_cons.mp hq with rfl | hq'
    · exact le_trans (le_max_right acc q.2) (foldl_max_le_acc t (max acc q.2))
    · exact ih (max acc p.2) q hq'

/-- Every recorded timestamp is at most the registry's maximum. -/
lemma le_maxTs {reg : List (ℕ × ℤ)} {q : ℕ × ℤ} (hq : q ∈ reg) : q.2 ≤ maxTs reg := by
  cases reg with
  | nil => simp at hq
  | cons p t =>
    simp only [maxTs]
    rcases List.mem_cons.mp hq with rfl | hq'
    · exact foldl_max_le_acc t q.2
    · exact mem_le_foldl_max t p.2 q hq'

/-- C4: in every reachable registry state, any two entries for distinct destinations carry timestamps at
least minSep apart; the gate never removes an entry; a destination
already in the registry is always immediately ready with the registry
unchanged; and on an empty registry the first destination unlocks
unconditionally. -/
theorem unlockRegistry_invariants (minSep : ℤ) (reg : List (ℕ × ℤ))
    (hreach : ReachableReg minSep reg) :
    (∀ p ∈ reg, ∀ q ∈ reg, p.1 ≠ q.1 → minSep ≤ |p.2 - q.2|)
    ∧ (∀ a nowCheck nowSet, ∀ p ∈ reg, p ∈ (tryUnlock reg a nowCheck nowSet minSep).1)
    ∧ (∀ a nowCheck nowSet, hasAddr reg a = true →
        tryUnlock reg a nowCheck nowSet minSep = (reg, true))
    ∧ (reg = [] → ∀ a nowCheck nowSet, (tryUnlock reg a nowCheck nowSet minSep).2 = true) := by
  refine ⟨?_, ?_, ?_, ?_⟩
  · induction hreach with
    | nil =>
      intro p hp
      simp at hp
    | step reg a nc ns hmono hr ih =>
      unfold tryUnlock
      by_cases hc1 : hasAddr reg a = true
      · rw [if_pos hc1]
        exact ih
      · rw [if_neg hc1]
        by_cases hc2 : reg.isEmpty = true
        · rw [if_pos hc2]
          have hregnil : reg = [] := List.isEmpty_iff.mp hc2
          subst hregnil
          intro p hp q hq hne
          have hpe : p = (a, ns) := by simpa using hp
          have hqe : q = (a, ns) := by simpa using hq
          rw [hpe, hqe] at hne
          exact absurd rfl hne
        · rw [if_neg hc2]
          by_cases hc3 : minSep ≤ nc - maxTs reg
          · rw [if_pos hc3]
            intro p hp q hq hne
            rcases List.mem_append.mp hp with hp' | hp0 <;>
              rcases List.mem_append.mp hq with hq' | hq0
            · exact ih p hp' q hq' hne
            · have hq2 : q.2 = ns := by
                have hqe : q = (a, ns) := by simpa using hq0
                rw [hqe]
              have hple : p.2 ≤ maxTs reg := le_maxTs hp'
              have hgap : minSep ≤ q.2 - p.2 := by
                rw [hq2]
                omega
              calc minSep ≤ q.2 - p.2 := hgap
                _ ≤ |q.2 - p.2| := le_abs_self _
                _ = |p.2 - q.2| := abs_sub_comm _ _
            · have hp2 : p.2 = ns := by
                have hpe : p = (a, ns) := by simpa using hp0
                rw [hpe]
              have hqle : q.2 ≤ maxTs reg := le_maxTs hq'
              have hgap : minSep ≤ p.2 - q.2 := by
                rw [hp2]
                omega
              exact le_trans hgap (le_abs_self _)
            · have hpe : p = (a, ns) := by simpa using hp0
              have hqe : q = (a, ns) := by simpa using hq0
              rw [hpe, hqe] at hne
              exact absurd rfl hne
          · rw [if_neg hc3]
            exact ih
  · intro a nc ns p hp
    unfold tryUnlock
    by_cases hc1 : hasAddr reg a = true
    · rw [if_pos hc1]
      exact hp
    · rw [if_neg hc1]
      by_cases hc2 : reg.isEmpty = true
      · rw [if_pos hc2]
        exact List.mem_append_left _ hp
      · rw [if_neg hc2]
        by_cases hc3 : minSep ≤ nc - maxTs reg
        · rw [if_pos hc3]
          exact List.mem_append_left _ hp
        · rw [if_neg hc3]
          exact hp
  · intro a nc ns hhas
    unfold tryUnlock
    rw [if_pos hhas]
  · intro hregnil a nc ns
    subst hregnil
    simp [tryUnlock, hasAddr]

/-- C4 witness: with a 60000 ms separation on the empty reachable
registry, the first destination's gate evaluation reports ready. -/
theorem unlockRegistry_invariants_witness :
    (tryUnlock [] 1 0 0 60000).2 = true :=
  (unlockRegistry_invariants 60000 [] ReachableReg.nil).2.2.2 rfl 1 0 0

/-! ### C9: the continuous-distribution paid set -/

/-- Set.add only ever grows the set. -/
lemma setAdd_subset (s : List ℕ) (a : ℕ) : s ⊆ setAdd s a := by
  unfold setAdd
  split
  · exact fun x hx => hx
  · exact fun x hx => List.mem_append_left _ hx

/-- The send loop only ever grows the paid set. -/
lemma runBatchSends_mono (minDist : ℤ) (send : ℕ → SendRes) :
    ∀ (pairs : List (ℕ × ℤ)) (sent : List ℕ),
      sent ⊆ (runBatchSends minDist send sent pairs).1 := by
  intro pairs
  induction pairs with
  | nil =>
    intro sent
    simp only [runBatchSends]
    exact fun x hx => hx
  | cons pr rest ih =>
    intro sent
    obtain ⟨r, amt⟩ := pr
    simp only [runBatchSends]
    by_cases hamt : amt < minDist
    · rw [if_pos hamt]
      exact ih sent
    · rw [if_neg hamt]
      cases hsr : send r with
      | skippedFunds => exact ih sent
      | failed => exact ih sent
      | succeeded =>
        exact fun x hx => ih (setAdd sent r) (setAdd_subset sent r hx)

/-- Every recipient the send loop attempts comes from the supplied pairs. -/
lemma runBatchSends_attempted (minDist : ℤ) (send : ℕ → SendRes) :
    ∀ (pairs : List (ℕ × ℤ)) (sent : List ℕ) (r : ℕ),
      r ∈ (runBatchSends minDist send sent pairs).2 → r ∈ pairs.map Prod.fst := by
  intro pairs
  induction pairs with
  | nil =>
    intro sent r h
    simp [runBatchSends] at h
  | cons pr rest ih =>
    intro sent r h
    obtain ⟨r0, amt⟩ := pr
    simp only [runBatchSends] at h
    simp only [List.map_cons]
    by_cases hamt : amt < minDist
    · rw [if_pos hamt] at h
      exact List.mem_cons_of_mem _ (ih sent r h)
    · rw [if_neg hamt] at h
      cases hsr : send r0 <;> rw [hsr] at h
      · exact List.mem_cons_of_mem _ (ih sent r h)
      · rcases List.mem_cons.mp h with rfl | h'
        · exact List.mem_cons_self _ _
        · exact List.mem_cons_of_mem _ (ih sent r h')
      · rcases List.mem_cons.mp h with rfl | h'
        · exact List.mem_cons_self _ _
        · exact List.mem_cons_of_mem _ (ih (setAdd sent r0) r h')

/-- One iteration's persisted paid set contains the set it started from. -/
lemma distributionIteration_mono (sent : List ℕ) (it : IterInput) :
    sent ⊆ (distributionIteration sent it).1 := by
  simp only [distributionIteration]
  exact runBatchSends_mono _ _ _ _

/-- No transfer in an iteration is attempted to a recipient that was in
the paid set when the iteration's eligibility filter ran. -/
lemma distributionIteration_attempted (sent : List ℕ) (it : IterInput) :
    ∀ a ∈ (distributionIteration sent it).2, a ∉ sent := by
  intro a ha
  simp only [distributionIteration] at ha
  have h1 := runBatchSends_attempted _ _ _ _ _ ha
  obtain ⟨pr, hpr, hfst⟩ := List.mem_map.mp h1
  have h2 := (List.mem_filter.mp hpr).1
  have h3 := (List.of_mem_zip h2).1
  have h4 := List.mem_of_mem_take h3
  have h5 := (List.mem_filter.mp h4).2
  rw [hfst] at h5
  exact of_decide_eq_true h5

/-- C9: along any run of the distribution loop, each iteration's persisted
paid set contains the set it started from — so every persisted set
contains the set loaded at startup and the chain of persisted sets never
shrinks — and no transfer is ever attempted to a recipient already in the
set as persisted when the iteration began, so a resumed run never pays a
recorded recipient twice. -/
theorem paidSet_append_only (s₀ : List ℕ) (its : List IterInput) :
    ∀ e ∈ runTrace its s₀,
      s₀ ⊆ e.1 ∧ e.1 ⊆ e.2.1 ∧ ∀ a ∈ e.2.2, a ∉ e.1 := by
  induction its generalizing s₀ with
  | nil =>
    intro e he
    simp [runTrace] at he
  | cons it rest ih =>
    intro e he
    simp only [runTrace, List.mem_cons] at he
    rcases he with rfl | he'
    · exact ⟨fun x hx => hx, distributionIteration_mono s₀ it,
        distributionIteration_attempted s₀ it⟩
    · have h := ih (distributionIteration s₀ it).1 e he'
      exact ⟨List.Subset.trans (distributionIteration_mono s₀ it) h.1, h.2.1, h.2.2⟩

/-- C9 witness: one concrete iteration starting from the loaded set [5]
attempts recipient 7, which indeed was not in the starting set. -/
theorem paidSet_append_only_witness :
    ([5] : List ℕ) ⊆ [5, 7] ∧ (7 : ℕ) ∉ ([5] : List ℕ) := by
  have h := paidSet_append_only [5]
      [⟨[5, 7], 100, [1], 10, 10, 1, fun _ => SendRes.succeeded⟩]
      ([5], [5, 7], [7]) (by decide)
  exact ⟨h.2.1, h.2.2 7 (by decide)⟩

end BuybackMixer
